import Mathlib

/-!
Shallow embedding of `scripts/numbers_analysis.py`.

Strings are modelled as `List Char`.  Python's regex class `\d` is modelled by
`Char.isDigit` (ASCII `'0'`–`'9'`): the module documents its input domain as
printable ASCII (codes 33–126), on which `\d` coincides with `[0-9]`.
Python's arbitrary-precision non-negative integers are modelled by `Nat`, and
the fallible builtin `int(...)` by an `Option Nat`-valued parser, so analyzer
functions that evaluate token values (`sum_tokens`, `max_token`) return
`Option String`: `none` models a raised `ValueError`.
-/

namespace NumbersAnalysis

/-- Numeric value of an ASCII digit character. -/
def digitVal (c : Char) : Nat := c.toNat - '0'.toNat

/-- Base-10 value of a list of digit characters (most significant first). -/
def digitsVal (s : List Char) : Nat := s.foldl (fun a c => 10 * a + digitVal c) 0

/-- Model of Python's builtin `int` applied to a token text.  `int(s)` returns
the base-10 value when `s` is a non-empty all-digit string, and raises
`ValueError` (modelled as `none`) when `s` is empty or contains a character
that is not an ASCII digit.  (Python's `int` also accepts signs, surrounding
whitespace and underscores; such texts never occur in this program's tokens
and are conservatively mapped to `none`.) -/
def strToNat (s : List Char) : Option Nat :=
  if s ≠ [] ∧ ∀ c ∈ s, c.isDigit = true then some (digitsVal s) else none

/-- Model of the `NumberToken` dataclass: one number extracted from the text,
keeping the raw digit text (so leading zeros are preserved). -/
structure NumberToken where
  text : List Char
deriving DecidableEq, Repr

/-- Model of the `NumberToken.value` property: `int(self.text)`. -/
def NumberToken.value (t : NumberToken) : Option Nat := strToNat t.text

/-- Model of the `NumberToken.length` property: `len(self.text)`. -/
def NumberToken.length (t : NumberToken) : Nat := t.text.length

/-- The data-model invariant on tokens: `text` is a non-empty run of ASCII
decimal digits. -/
def ValidToken (t : NumberToken) : Prop :=
  t.text ≠ [] ∧ ∀ c ∈ t.text, c.isDigit = true

instance (t : NumberToken) : Decidable (ValidToken t) := by
  unfold ValidToken; infer_instance

/-- Model of `extract_number_tokens`: the regex scan `(?<!\d)(\d+)(?!\d)`
over the input, producing one token per maximal digit run, in order of
appearance.
The recursion skips a non-digit head, and at a digit head takes the whole
maximal digit run `c :: cs.takeWhile Char.isDigit` as one token and resumes
after it. -/
def extract_number_tokens : List Char → List NumberToken
  | [] => []
  | c :: cs =>
    if c.isDigit then
      NumberToken.mk (c :: cs.takeWhile Char.isDigit) ::
        extract_number_tokens (cs.dropWhile Char.isDigit)
    else
      extract_number_tokens cs
termination_by s => s.length
decreasing_by
  · exact Nat.lt_succ_of_le (List.dropWhile_sublist Char.isDigit).length_le
  · exact Nat.lt_succ_self _

/-- Model of `count_tokens`: `str(len(token_list))`. -/
def count_tokens (tokens : List NumberToken) : String :=
  toString tokens.length

/-- Model of `sum_tokens`: `str(sum(token.value for token in tokens))`.
Python's `sum` is a left fold starting from `0`; evaluating a token's
`value` may raise, hence the `Option`. -/
def sum_tokens (tokens : List NumberToken) : Option String :=
  (tokens.mapM NumberToken.value).map fun vs => toString (vs.foldl (· + ·) 0)

/-- Model of Python's builtin `max` over a sequence of naturals: raises
(`none`) on the empty sequence, otherwise folds `max` from the first
element. -/
def listMax : List Nat → Option Nat
  | [] => none
  | v :: vs => some (vs.foldl Nat.max v)

/-- Model of `max_token`: returns `"BRAK"` on the empty list, otherwise
`str(max(token.value for token in token_list))`. -/
def max_token (tokens : List NumberToken) : Option String :=
  match tokens with
  | [] => some "BRAK"
  | _ :: _ =>
    (tokens.mapM NumberToken.value).bind fun vs => (listMax vs).map toString

/-- Body of the loop in `longest_token`: replace the current longest token by
the candidate only when the candidate is strictly longer. -/
def longestStep (longest candidate : NumberToken) : NumberToken :=
  if candidate.length > longest.length then candidate else longest

/-- Model of `longest_token`: returns `"BRAK"` on the empty list, otherwise
scans the list keeping the current longest token, replacing it only on a
strictly greater length, and renders
`f"\x7blongest.text\x7d \x7blongest.length\x7d"`. -/
def longest_token (tokens : List NumberToken) : String :=
  match tokens with
  | [] => "BRAK"
  | t :: ts =>
    let best := ts.foldl longestStep t
    String.mk best.text ++ " " ++ toString best.length

/-- The four task names accepted by `--tasks` (the `TASKS` registry keys). -/
inductive TaskName
  | count
  | sum
  | max
  | longest
deriving DecidableEq, Repr

/-- The `TASKS` registry: task name to analyzer.  Analyzers that never
evaluate token values are wrapped in `some`. -/
def runTask : TaskName → List NumberToken → Option String
  | TaskName.count, ts => some (count_tokens ts)
  | TaskName.sum, ts => sum_tokens ts
  | TaskName.max, ts => max_token ts
  | TaskName.longest, ts => some (longest_token ts)

/-- Name of the output file written for a task: `f"\x7btask_name\x7d.txt"`. -/
def taskFile : TaskName → String
  | TaskName.count => "count.txt"
  | TaskName.sum => "sum.txt"
  | TaskName.max => "max.txt"
  | TaskName.longest => "longest.txt"

/-- Observable filesystem effects of a run of `main`, in order. -/
inductive Event
  | tokenized
  | madeOutputDir
  | wroteFile (name content : String)
deriving DecidableEq, Repr

/-- The part of the filesystem state `main` reads: whether the `--input` path
is an existing regular file, and the decoded text it contains. -/
structure FSModel where
  inputIsFile : Bool
  inputText : List Char

/-- The per-task loop at the end of `main`: for each selected task, run the
analyzer on the shared token list and write `<task>.txt`.  Returns the events
performed and whether the loop completed without an exception. -/
def writeLoop (tokens : List NumberToken) : List TaskName → List Event × Bool
  | [] => ([], true)
  | t :: ts =>
    match runTask t tokens with
    | none => ([], false)
    | some r =>
      let rest := writeLoop tokens ts
      (Event.wroteFile (taskFile t) (r ++ "\n") :: rest.1, rest.2)

/-- Model of `main`, with filesystem effects made explicit: if the input path is not an
existing regular file it raises `FileNotFoundError` before doing anything
else; otherwise it reads and tokenizes the input, creates the output
directory, and runs the per-task write loop.  Returns the events performed
and whether the run completed without an exception. -/
def mainModel (fs : FSModel) (tasks : List TaskName) : List Event × Bool :=
  if fs.inputIsFile then
    let tokens := extract_number_tokens fs.inputText
    let rest := writeLoop tokens tasks
    (Event.tokenized :: Event.madeOutputDir :: rest.1, rest.2)
  else
    ([], false)

/-- Specification-side decomposition predicate: `TokenDecomp s ts` says that
`s` splits as `g₀ ++ t₁ ++ g₁ ++ t₂ ++ ⋯ ++ tₙ ++ gₙ` where the `gᵢ` contain
no digits, each `tᵢ` is a non-empty all-digit run whose following character
(when it exists) is not a digit, and `ts = [t₁, …, tₙ]`.  This is exactly the
spec's description of the tokenizer output: one token per maximal digit run,
in left-to-right order, with non-digit (or absent) neighbours. -/
inductive TokenDecomp : List Char → List (List Char) → Prop
  | nil (g : List Char) (hg : ∀ c ∈ g, c.isDigit = false) :
      TokenDecomp g []
  | cons (g run rest : List Char) (ts : List (List Char))
      (hg : ∀ c ∈ g, c.isDigit = false)
      (hne : run ≠ [])
      (hrun : ∀ c ∈ run, c.isDigit = true)
      (hrest : ∀ c cs, rest = c :: cs → c.isDigit = false)
      (htail : TokenDecomp rest ts) :
      TokenDecomp (g ++ run ++ rest) (run :: ts)

end NumbersAnalysis

namespace NumbersAnalysis

/-- C5: `count_tokens` returns the decimal string of the number of tokens in
the sequence; in particular it returns `"0"` for the empty sequence. -/
theorem count_tokens_spec :
    (∀ tokens : List NumberToken, count_tokens tokens = toString tokens.length) ∧
    count_tokens [] = "0" :=
  ⟨fun _ => rfl, rfl⟩

/-- C8: the tokenizer is deterministic: two invocations of
`extract_number_tokens` on the same string yield identical token sequences
(it is a pure function of its input in this embedding, as in the source,
which touches no external state). -/
theorem extract_number_tokens_deterministic (s₁ s₂ : List Char) (h : s₁ = s₂) :
    extract_number_tokens s₁ = extract_number_tokens s₂ := by
  rw [h]

/-- Witness for C8 at a concrete input. -/
theorem extract_number_tokens_deterministic_witness :
    extract_number_tokens ['a', '1', '2'] = extract_number_tokens ['a', '1', '2'] :=
  extract_number_tokens_deterministic ['a', '1', '2'] ['a', '1', '2'] rfl

theorem filter_takeWhile_dropWhile (p : Char → Bool) (l : List Char) :
    l.filter p = l.takeWhile p ++ (l.dropWhile p).filter p := by
  conv_lhs => rw [← List.takeWhile_append_dropWhile p l]
  rw [List.filter_append,
    List.filter_eq_self.mpr fun a ha => List.mem_takeWhile_imp ha]

/-- C9: concatenating the texts of the extracted tokens, in order, yields
exactly the subsequence of digit characters of the input: tokenization drops,
duplicates and reorders no digit. -/
theorem extract_number_tokens_flatten_filter (s : List Char) :
    ((extract_number_tokens s).map NumberToken.text).flatten =
      s.filter Char.isDigit := by
  induction s using extract_number_tokens.induct with
  | case1 => simp [extract_number_tokens]
  | case2 c cs hc ih =>
    rw [extract_number_tokens]
    simp only [hc, if_pos, List.map_cons, List.flatten_cons, ih]
    rw [List.filter_cons_of_pos (by simpa using hc),
      filter_takeWhile_dropWhile Char.isDigit cs, List.cons_append]
  | case3 c cs hc ih =>
    rw [extract_number_tokens]
    simp only [hc, if_neg]
    rw [List.filter_cons_of_neg (by simpa using hc)]
    exact ih

theorem splitBoundaryEq (p : Char → Bool) :
    ∀ a₁ a₂ b₁ b₂ : List Char,
      a₁ ++ b₁ = a₂ ++ b₂ →
      (∀ c ∈ a₁, p c = true) → (∀ c ∈ a₂, p c = true) →
      (∀ c cs, b₁ = c :: cs → p c = false) →
      (∀ c cs, b₂ = c :: cs → p c = false) →
      a₁ = a₂ ∧ b₁ = b₂ := by
  intro a₁
  induction a₁ with
  | nil =>
    intro a₂ b₁ b₂ h _ ha₂ hb₁ _
    cases a₂ with
    | nil => exact ⟨rfl, by simpa using h⟩
    | cons c a₂' =>
      exfalso
      simp only [List.nil_append, List.cons_append] at h
      have hc : p c = true := ha₂ c (List.mem_cons_self _ _)
      have hc' : p c = false := hb₁ c (a₂' ++ b₂) h
      simp [hc'] at hc
  | cons c a₁' ih =>
    intro a₂ b₁ b₂ h ha₁ ha₂ hb₁ hb₂
    cases a₂ with
    | nil =>
      exfalso
      simp only [List.nil_append, List.cons_append] at h
      have hc : p c = true := ha₁ c (List.mem_cons_self _ _)
      have hc' : p c = false := hb₂ c (a₁' ++ b₁) h.symm
      simp [hc'] at hc
    | cons c₂ a₂' =>
      simp only [List.cons_append, List.cons.injEq] at h
      obtain ⟨rfl, h'⟩ := h
      obtain ⟨he, hb⟩ := ih a₂' b₁ b₂ h'
        (fun x hx => ha₁ x (List.mem_cons_of_mem _ hx))
        (fun x hx => ha₂ x (List.mem_cons_of_mem _ hx)) hb₁ hb₂
      exact ⟨by rw [he], hb⟩

theorem tokenDecomp_cons_nondigit {c : Char} {cs : List Char}
    {ts : List (List Char)} (hc : c.isDigit = false) (h : TokenDecomp cs ts) :
    TokenDecomp (c :: cs) ts := by
  cases h with
  | nil g hg =>
    exact TokenDecomp.nil (c :: cs) (List.forall_mem_cons.mpr ⟨hc, hg⟩)
  | cons g run rest ts hg hne hrun hrest htail =>
    simpa [List.cons_append] using
      TokenDecomp.cons (c :: g) run rest ts
        (List.forall_mem_cons.mpr ⟨hc, hg⟩) hne hrun hrest htail

theorem tokenDecomp_extract (s : List Char) :
    TokenDecomp s ((extract_number_tokens s).map NumberToken.text) := by
  induction s using extract_number_tokens.induct with
  | case1 =>
    simp only [extract_number_tokens, List.map_nil]
    exact TokenDecomp.nil [] (by simp)
  | case2 c cs hc ih =>
    rw [extract_number_tokens]
    simp only [hc, if_pos, List.map_cons]
    have hcons := TokenDecomp.cons [] (c :: cs.takeWhile Char.isDigit)
      (cs.dropWhile Char.isDigit)
      ((extract_number_tokens (cs.dropWhile Char.isDigit)).map NumberToken.text)
      (by simp)
      (by simp)
      (by
        intro x hx
        rcases List.mem_cons.mp hx with h | h
        · exact h ▸ hc
        · exact List.mem_takeWhile_imp h)
      (by
        intro x xs hx
        have hhead := List.head?_dropWhile_not Char.isDigit cs
        rw [hx] at hhead
        simpa using hhead)
      ih
    have hs : ([] : List Char) ++ (c :: cs.takeWhile Char.isDigit) ++
        cs.dropWhile Char.isDigit = c :: cs := by
      simp [List.takeWhile_append_dropWhile]
    rw [hs] at hcons
    exact hcons
  | case3 c cs hc ih =>
    rw [extract_number_tokens]
    simp only [hc, if_neg]
    exact tokenDecomp_cons_nondigit (by simpa using hc) ih

theorem tokenDecomp_unique_aux {s : List Char} {ts₁ : List (List Char)}
    (h₁ : TokenDecomp s ts₁) :
    ∀ {s' : List Char} {ts₂ : List (List Char)},
      TokenDecomp s' ts₂ → s = s' → ts₁ = ts₂ := by
  induction h₁ with
  | nil g hg =>
    intro s' ts₂ h₂ heq
    cases h₂ with
    | nil => rfl
    | cons g₂ r₂ rest₂ ts₂' hg₂ hne₂ hr₂ hrest₂ htail₂ =>
      exfalso
      obtain ⟨a, r₂', rfl⟩ := List.exists_cons_of_ne_nil hne₂
      have ha : a ∈ g := by rw [heq]; simp
      have hfalse := hg a ha
      have htrue := hr₂ a (List.mem_cons_self _ _)
      simp [hfalse] at htrue
  | cons g r rest ts hg hne hr hrest htail ih =>
    intro s' ts₂ h₂ heq
    cases h₂ with
    | nil g₂ hg₂ =>
      exfalso
      obtain ⟨a, r', rfl⟩ := List.exists_cons_of_ne_nil hne
      have ha : a ∈ s' := by rw [← heq]; simp
      have hfalse := hg₂ a ha
      have htrue := hr a (List.mem_cons_self _ _)
      simp [hfalse] at htrue
    | cons g₂ r₂ rest₂ ts₂' hg₂ hne₂ hr₂ hrest₂ htail₂ =>
      have heq' : g ++ (r ++ rest) = g₂ ++ (r₂ ++ rest₂) := by
        simpa [List.append_assoc] using heq
      obtain ⟨hgeq, hrr⟩ := splitBoundaryEq (fun c => !c.isDigit)
        g g₂ (r ++ rest) (r₂ ++ rest₂) heq'
        (fun c hc => by simp [hg c hc])
        (fun c hc => by simp [hg₂ c hc])
        (by
          intro c cs hcs
          obtain ⟨a, r', rfl⟩ := List.exists_cons_of_ne_nil hne
          simp only [List.cons_append, List.cons.injEq] at hcs
          obtain ⟨rfl, -⟩ := hcs
          simp [hr a (List.mem_cons_self _ _)])
        (by
          intro c cs hcs
          obtain ⟨a, r', rfl⟩ := List.exists_cons_of_ne_nil hne₂
          simp only [List.cons_append, List.cons.injEq] at hcs
          obtain ⟨rfl, -⟩ := hcs
          simp [hr₂ a (List.mem_cons_self _ _)])
      obtain ⟨hreq, hresteq⟩ :=
        splitBoundaryEq Char.isDigit r r₂ rest rest₂ hrr hr hr₂ hrest hrest₂
      rw [hreq, ih htail₂ hresteq]

theorem tokenDecomp_unique {s : List Char} {ts₁ ts₂ : List (List Char)}
    (h₁ : TokenDecomp s ts₁) (h₂ : TokenDecomp s ts₂) : ts₁ = ts₂ :=
  tokenDecomp_unique_aux h₁ h₂ rfl

/-- C1: for every input string, the texts of the tokens returned by
`extract_number_tokens` form the (unique) decomposition of the input into
maximal digit runs: one token per maximal run, in left-to-right order, each a
non-empty run of ASCII decimal digits whose neighbouring characters (when
they exist) are not digits. -/
theorem extract_number_tokens_spec (s : List Char) :
    TokenDecomp s ((extract_number_tokens s).map NumberToken.text) ∧
    ∀ ts₁ ts₂, TokenDecomp s ts₁ → TokenDecomp s ts₂ → ts₁ = ts₂ :=
  ⟨tokenDecomp_extract s, fun _ _ h₁ h₂ => tokenDecomp_unique h₁ h₂⟩

/-- Witness for C1 at a concrete input, with concrete decompositions. -/
theorem extract_number_tokens_spec_witness :
    TokenDecomp ['1', '2', 'a', '3']
        ((extract_number_tokens ['1', '2', 'a', '3']).map NumberToken.text) ∧
    ([['1', '2'], ['3']] : List (List Char)) = [['1', '2'], ['3']] := by
  have inner : TokenDecomp ['a', '3'] [['3']] := by
    have h := TokenDecomp.cons ['a'] ['3'] [] []
      (by decide) (by simp) (by decide)
      (by intro c cs hcs; simp at hcs)
      (TokenDecomp.nil [] (by simp))
    simpa using h
  have d : TokenDecomp ['1', '2', 'a', '3'] [['1', '2'], ['3']] := by
    have h := TokenDecomp.cons [] ['1', '2'] ['a', '3'] [['3']]
      (by simp) (by simp) (by decide)
      (by
        intro c cs hcs
        injection hcs with h1 h2
        subst h1
        decide)
      inner
    simpa using h
  exact ⟨(extract_number_tokens_spec ['1', '2', 'a', '3']).1,
    (extract_number_tokens_spec ['1', '2', 'a', '3']).2 _ _ d d⟩

theorem foldl_longestStep_spec (ts : List NumberToken) :
    ∀ b : NumberToken,
      ∃ pre post, b :: ts = pre ++ (ts.foldl longestStep b) :: post ∧
        (∀ u ∈ pre, u.length < (ts.foldl longestStep b).length) ∧
        (∀ u ∈ b :: ts, u.length ≤ (ts.foldl longestStep b).length) := by
  induction ts with
  | nil =>
    intro b
    exact ⟨[], [], rfl, by simp, by simp⟩
  | cons x xs ih =>
    intro b
    rw [List.foldl_cons]
    by_cases hx : x.length > b.length
    · have hstep : longestStep b x = x := by simp [longestStep, hx]
      rw [hstep]
      obtain ⟨pre, post, hdec, hpre, hmax⟩ := ih x
      refine ⟨b :: pre, post, by rw [List.cons_append, ← hdec], ?_, ?_⟩
      · intro u hu
        rcases List.mem_cons.mp hu with rfl | hu
        · exact lt_of_lt_of_le hx (hmax x (List.mem_cons_self _ _))
        · exact hpre u hu
      · intro u hu
        rcases List.mem_cons.mp hu with rfl | hu
        · exact le_of_lt (lt_of_lt_of_le hx (hmax x (List.mem_cons_self _ _)))
        · exact hmax u hu
    · have hstep : longestStep b x = b := by simp [longestStep, hx]
      rw [hstep]
      obtain ⟨pre, post, hdec, hpre, hmax⟩ := ih b
      have hxb : x.length ≤ b.length := Nat.le_of_not_lt hx
      have hbr : b.length ≤ (xs.foldl longestStep b).length :=
        hmax b (List.mem_cons_self _ _)
      cases pre with
      | nil =>
        have hdec' : b :: xs = (xs.foldl longestStep b) :: post := by
          simpa using hdec
        have hb : b = xs.foldl longestStep b := by
          injection hdec'
        refine ⟨[], x :: xs, ?_, by simp, ?_⟩
        · simp [← hb]
        · intro u hu
          rcases List.mem_cons.mp hu with rfl | hu
          · exact hbr
          · rcases List.mem_cons.mp hu with rfl | hu
            · exact le_trans hxb hbr
            · exact hmax u (List.mem_cons_of_mem _ hu)
      | cons q pre' =>
        have hq : q = b ∧ xs = pre' ++ (xs.foldl longestStep b) :: post := by
          rw [List.cons_append] at hdec
          exact ⟨(List.cons.injEq .. |>.mp hdec).1.symm,
            (List.cons.injEq .. |>.mp hdec).2⟩
        obtain ⟨rfl, hxs⟩ := hq
        have hqr : q.length < (xs.foldl longestStep q).length :=
          hpre q (List.mem_cons_self _ _)
        refine ⟨q :: x :: pre', post, ?_, ?_, ?_⟩
        · rw [List.cons_append, List.cons_append, ← hxs]
        · intro u hu
          rcases List.mem_cons.mp hu with rfl | hu
          · exact hqr
          · rcases List.mem_cons.mp hu with rfl | hu
            · exact lt_of_le_of_lt hxb hqr
            · exact hpre u (List.mem_cons_of_mem _ hu)
        · intro u hu
          rcases List.mem_cons.mp hu with rfl | hu
          · exact le_of_lt hqr
          · rcases List.mem_cons.mp hu with rfl | hu
            · exact le_trans hxb (le_of_lt hqr)
            · exact hmax u (List.mem_cons_of_mem _ hu)

/-- C2: `longest_token` on the empty sequence returns the sentinel `"BRAK"`;
on a non-empty sequence it returns `"<text> <length>"` of the first token of
maximal digit count: the sequence splits as `pre ++ t :: post` with every
token of `pre` strictly shorter than `t` and no token longer than `t`. -/
theorem longest_token_spec :
    longest_token [] = "BRAK" ∧
    ∀ tokens : List NumberToken, tokens ≠ [] →
      ∃ t pre post, tokens = pre ++ t :: post ∧
        (∀ u ∈ pre, u.length < t.length) ∧
        (∀ u ∈ tokens, u.length ≤ t.length) ∧
        longest_token tokens = String.mk t.text ++ " " ++ toString t.length := by
  refine ⟨rfl, ?_⟩
  intro tokens hne
  obtain ⟨b, ts, rfl⟩ := List.exists_cons_of_ne_nil hne
  obtain ⟨pre, post, hdec, hpre, hmax⟩ := foldl_longestStep_spec ts b
  exact ⟨ts.foldl longestStep b, pre, post, hdec, hpre,
    fun u hu => hmax u hu, rfl⟩

/-- Witness for C2 at the concrete token sequence of the worked example. -/
theorem longest_token_spec_witness :
    ∃ t pre post,
      ([NumberToken.mk ['3', '5', '6'], NumberToken.mk ['4'],
        NumberToken.mk ['2', '4', '5']] : List NumberToken) =
        pre ++ t :: post ∧
      (∀ u ∈ pre, u.length < t.length) ∧
      (∀ u ∈ ([NumberToken.mk ['3', '5', '6'], NumberToken.mk ['4'],
        NumberToken.mk ['2', '4', '5']] : List NumberToken),
        u.length ≤ t.length) ∧
      longest_token [NumberToken.mk ['3', '5', '6'], NumberToken.mk ['4'],
        NumberToken.mk ['2', '4', '5']] =
        String.mk t.text ++ " " ++ toString t.length :=
  longest_token_spec.2
    [NumberToken.mk ['3', '5', '6'], NumberToken.mk ['4'],
      NumberToken.mk ['2', '4', '5']] (by simp)

theorem value_eq_of_valid {t : NumberToken} (h : ValidToken t) :
    t.value = some (digitsVal t.text) := by
  have h' : t.text ≠ [] ∧ ∀ c ∈ t.text, c.isDigit = true := h
  rw [NumberToken.value, strToNat, if_pos h']

theorem value_eq_none_of_not_valid {t : NumberToken} (h : ¬ ValidToken t) :
    t.value = none := by
  rw [NumberToken.value, strToNat, if_neg]
  exact fun hcond => h hcond

theorem mapM_value_eq (l : List NumberToken) :
    l.mapM NumberToken.value =
      if ∀ t ∈ l, ValidToken t then some (l.map fun t => digitsVal t.text)
      else none := by
  induction l with
  | nil =>
    rw [List.mapM_nil]
    simp
  | cons t l ih =>
    rw [List.mapM_cons, ih]
    by_cases ht : ValidToken t
    · rw [value_eq_of_valid ht]
      by_cases hl : ∀ u ∈ l, ValidToken u
      · rw [if_pos hl, if_pos (List.forall_mem_cons.mpr ⟨ht, hl⟩)]
        rfl
      · have hneg : ¬ ∀ u ∈ t :: l, ValidToken u :=
          fun hcontra => hl fun u hu => hcontra u (List.mem_cons_of_mem _ hu)
        rw [if_neg hl, if_neg hneg]
        rfl
    · have hneg : ¬ ∀ u ∈ t :: l, ValidToken u :=
        fun hcontra => ht (hcontra t (List.mem_cons_self _ _))
      rw [value_eq_none_of_not_valid ht, if_neg hneg]
      rfl

/-- C3: `sum_tokens` returns the decimal string of the exact arithmetic sum
of the token values (arbitrary precision: values live in `Nat`), and returns
`"0"` for the empty sequence. -/
theorem sum_tokens_spec :
    (∀ tokens : List NumberToken, (∀ t ∈ tokens, ValidToken t) →
      sum_tokens tokens =
        some (toString ((tokens.map fun t => digitsVal t.text).sum))) ∧
    sum_tokens [] = some "0" := by
  constructor
  · intro tokens h
    rw [sum_tokens, mapM_value_eq, if_pos h, Option.map_some', List.sum_eq_foldl]
  · rfl

/-- Witness for C3 at a concrete token sequence. -/
theorem sum_tokens_spec_witness :
    sum_tokens [NumberToken.mk ['0', '0', '1'], NumberToken.mk ['2', '0']] =
      some (toString (([NumberToken.mk ['0', '0', '1'],
        NumberToken.mk ['2', '0']].map fun t => digitsVal t.text).sum)) :=
  sum_tokens_spec.1
    [NumberToken.mk ['0', '0', '1'], NumberToken.mk ['2', '0']] (by decide)

theorem foldl_max_mem_and_le (vs : List Nat) :
    ∀ v : Nat, vs.foldl Nat.max v ∈ v :: vs ∧
      ∀ x ∈ v :: vs, x ≤ vs.foldl Nat.max v := by
  induction vs with
  | nil =>
    intro v
    exact ⟨by simp, by simp⟩
  | cons x xs ih =>
    intro v
    rw [List.foldl_cons]
    obtain ⟨hmem, hle⟩ := ih (Nat.max v x)
    constructor
    · rcases List.mem_cons.mp hmem with he | hm
      · rcases Nat.le_total v x with h | h
        · have hx : Nat.max v x = x := Nat.max_eq_right h
          rw [he, hx]
          exact List.mem_cons_of_mem _ (List.mem_cons_self _ _)
        · have hx : Nat.max v x = v := Nat.max_eq_left h
          rw [he, hx]
          exact List.mem_cons_self _ _
      · exact List.mem_cons_of_mem _ (List.mem_cons_of_mem _ hm)
    · intro y hy
      rcases List.mem_cons.mp hy with rfl | hy
      · exact le_trans (Nat.le_max_left _ _) (hle _ (List.mem_cons_self _ _))
      · rcases List.mem_cons.mp hy with rfl | hy
        · exact le_trans (Nat.le_max_right _ _) (hle _ (List.mem_cons_self _ _))
        · exact hle y (List.mem_cons_of_mem _ hy)

/-- C4: `max_token` on the empty sequence returns the sentinel `"BRAK"`; on a
non-empty sequence of tokens it returns the decimal string of the greatest
token integer value (the comparison and the rendered result use the numeric
values, so leading zeros in the texts are immaterial). -/
theorem max_token_spec :
    max_token [] = some "BRAK" ∧
    ∀ tokens : List NumberToken, tokens ≠ [] → (∀ t ∈ tokens, ValidToken t) →
      ∃ m, (∀ t ∈ tokens, digitsVal t.text ≤ m) ∧
        (∃ t ∈ tokens, digitsVal t.text = m) ∧
        max_token tokens = some (toString m) := by
  constructor
  · rfl
  · intro tokens hne hval
    obtain ⟨b, ts, rfl⟩ := List.exists_cons_of_ne_nil hne
    have hmapM := mapM_value_eq (b :: ts)
    rw [if_pos hval] at hmapM
    obtain ⟨hmem, hle⟩ :=
      foldl_max_mem_and_le (ts.map fun t => digitsVal t.text) (digitsVal b.text)
    refine ⟨(ts.map fun t => digitsVal t.text).foldl Nat.max (digitsVal b.text),
      ?_, ?_, ?_⟩
    · intro t ht
      apply hle
      rcases List.mem_cons.mp ht with rfl | ht
      · exact List.mem_cons_self _ _
      · exact List.mem_cons_of_mem _ (List.mem_map_of_mem _ ht)
    · rcases List.mem_cons.mp hmem with he | hm
      · exact ⟨b, List.mem_cons_self _ _, he.symm⟩
      · obtain ⟨t, ht, he⟩ := List.mem_map.mp hm
        exact ⟨t, List.mem_cons_of_mem _ ht, he⟩
    · have e1 : max_token (b :: ts) =
          ((b :: ts).mapM NumberToken.value).bind fun vs =>
            (listMax vs).map toString := rfl
      rw [e1, hmapM]
      rfl

/-- Witness for C4 at a concrete token sequence with a leading-zero text. -/
theorem max_token_spec_witness :
    ∃ m, (∀ t ∈ ([NumberToken.mk ['0', '0', '1'],
        NumberToken.mk ['2', '0']] : List NumberToken), digitsVal t.text ≤ m) ∧
      (∃ t ∈ ([NumberToken.mk ['0', '0', '1'],
        NumberToken.mk ['2', '0']] : List NumberToken), digitsVal t.text = m) ∧
      max_token [NumberToken.mk ['0', '0', '1'], NumberToken.mk ['2', '0']] =
        some (toString m) :=
  max_token_spec.2 [NumberToken.mk ['0', '0', '1'], NumberToken.mk ['2', '0']]
    (by simp) (by decide)

/-- C6: every analyzer is total: on any token sequence satisfying the data
model's invariant (non-empty all-digit texts) each of the four analyzers
returns a string — in particular the two analyzers that evaluate token
values never fail. -/
theorem analyzers_total (tokens : List NumberToken)
    (h : ∀ t ∈ tokens, ValidToken t) :
    (∃ s, count_tokens tokens = s) ∧ (∃ s, sum_tokens tokens = some s) ∧
    (∃ s, max_token tokens = some s) ∧ (∃ s, longest_token tokens = s) := by
  refine ⟨⟨count_tokens tokens, rfl⟩, ?_, ?_, ⟨longest_token tokens, rfl⟩⟩
  · refine ⟨toString ((tokens.map fun t => digitsVal t.text).foldl (· + ·) 0), ?_⟩
    rw [sum_tokens, mapM_value_eq, if_pos h]
    rfl
  · cases tokens with
    | nil => exact ⟨"BRAK", rfl⟩
    | cons b ts =>
      have hmapM := mapM_value_eq (b :: ts)
      rw [if_pos h] at hmapM
      refine ⟨toString ((ts.map fun t => digitsVal t.text).foldl Nat.max
        (digitsVal b.text)), ?_⟩
      have e1 : max_token (b :: ts) =
          ((b :: ts).mapM NumberToken.value).bind fun vs =>
            (listMax vs).map toString := rfl
      rw [e1, hmapM]
      rfl

/-- Witness for C6 at a concrete token sequence. -/
theorem analyzers_total_witness :
    (∃ s, count_tokens [NumberToken.mk ['7'], NumberToken.mk ['0', '1']] = s) ∧
    (∃ s, sum_tokens [NumberToken.mk ['7'], NumberToken.mk ['0', '1']] = some s) ∧
    (∃ s, max_token [NumberToken.mk ['7'], NumberToken.mk ['0', '1']] = some s) ∧
    (∃ s, longest_token [NumberToken.mk ['7'], NumberToken.mk ['0', '1']] = s) :=
  analyzers_total [NumberToken.mk ['7'], NumberToken.mk ['0', '1']] (by decide)

theorem listMax_eq_foldl_zero (l : List Nat) (hne : l ≠ []) :
    listMax l = some (l.foldl Nat.max 0) := by
  cases l with
  | nil => exact absurd rfl hne
  | cons v vs =>
    rw [listMax, List.foldl_cons]
    have hz : Nat.max 0 v = v := Nat.zero_max v
    rw [hz]

theorem listMax_perm {l l' : List Nat} (h : l.Perm l') :
    listMax l = listMax l' := by
  cases l with
  | nil =>
    have hlen := h.length_eq
    simp only [List.length_nil] at hlen
    rw [List.length_eq_zero.mp hlen.symm]
  | cons v vs =>
    have hne : l' ≠ [] := by
      intro hc
      subst hc
      have hlen := h.length_eq
      simp at hlen
    rw [listMax_eq_foldl_zero _ (by simp), listMax_eq_foldl_zero _ hne,
      h.foldl_eq 0]

/-- C10: the analyzers `count_tokens`, `sum_tokens` and `max_token` are
order-insensitive: on any permutation of a token sequence (valid or not) they
return the same result as on the original sequence. -/
theorem analyzers_perm_invariant (tokens tokens' : List NumberToken)
    (h : tokens.Perm tokens') :
    count_tokens tokens = count_tokens tokens' ∧
    sum_tokens tokens = sum_tokens tokens' ∧
    max_token tokens = max_token tokens' := by
  refine ⟨?_, ?_, ?_⟩
  · rw [count_tokens, count_tokens, h.length_eq]
  · rw [sum_tokens, sum_tokens, mapM_value_eq, mapM_value_eq]
    by_cases hv : ∀ t ∈ tokens, ValidToken t
    · have hv' : ∀ t ∈ tokens', ValidToken t :=
        fun t ht => hv t (h.mem_iff.mpr ht)
      rw [if_pos hv, if_pos hv', Option.map_some', Option.map_some',
        ← List.sum_eq_foldl, ← List.sum_eq_foldl, (h.map _).sum_eq]
    · have hv' : ¬ ∀ t ∈ tokens', ValidToken t :=
        fun hcontra => hv fun t ht => hcontra t (h.mem_iff.mp ht)
      rw [if_neg hv, if_neg hv']
  · cases tokens with
    | nil =>
      have hlen := h.length_eq
      simp only [List.length_nil] at hlen
      rw [List.length_eq_zero.mp hlen.symm]
    | cons b ts =>
      cases tokens' with
      | nil =>
        have hlen := h.length_eq
        simp at hlen
      | cons b' ts' =>
        have e1 : max_token (b :: ts) =
            ((b :: ts).mapM NumberToken.value).bind fun vs =>
              (listMax vs).map toString := rfl
        have e2 : max_token (b' :: ts') =
            ((b' :: ts').mapM NumberToken.value).bind fun vs =>
              (listMax vs).map toString := rfl
        rw [e1, e2, mapM_value_eq, mapM_value_eq]
        by_cases hv : ∀ t ∈ b :: ts, ValidToken t
        · have hv' : ∀ t ∈ b' :: ts', ValidToken t :=
            fun t ht => hv t (h.mem_iff.mpr ht)
          rw [if_pos hv, if_pos hv']
          show (listMax ((b :: ts).map fun t => digitsVal t.text)).map toString =
            (listMax ((b' :: ts').map fun t => digitsVal t.text)).map toString
          rw [listMax_perm (h.map _)]
        · have hv' : ¬ ∀ t ∈ b' :: ts', ValidToken t :=
            fun hcontra => hv fun t ht => hcontra t (h.mem_iff.mp ht)
          rw [if_neg hv, if_neg hv']

/-- Witness for C10 at a concrete permutation of a concrete token sequence. -/
theorem analyzers_perm_invariant_witness :
    count_tokens [NumberToken.mk ['0', '0', '1'], NumberToken.mk ['2', '0']] =
      count_tokens [NumberToken.mk ['2', '0'], NumberToken.mk ['0', '0', '1']] ∧
    sum_tokens [NumberToken.mk ['0', '0', '1'], NumberToken.mk ['2', '0']] =
      sum_tokens [NumberToken.mk ['2', '0'], NumberToken.mk ['0', '0', '1']] ∧
    max_token [NumberToken.mk ['0', '0', '1'], NumberToken.mk ['2', '0']] =
      max_token [NumberToken.mk ['2', '0'], NumberToken.mk ['0', '0', '1']] :=
  analyzers_perm_invariant
    [NumberToken.mk ['0', '0', '1'], NumberToken.mk ['2', '0']]
    [NumberToken.mk ['2', '0'], NumberToken.mk ['0', '0', '1']]
    (List.Perm.swap _ _ _)

/-- C7: when the configured input path is not an existing regular file, `main`
fails with a fatal error having performed no tokenization, no output-directory
creation and no file write. -/
theorem mainModel_missing_input (fs : FSModel) (tasks : List TaskName)
    (h : fs.inputIsFile = false) :
    mainModel fs tasks = ([], false) := by
  simp [mainModel, h]

/-- Witness for C7 at a concrete filesystem state and task list. -/
theorem mainModel_missing_input_witness :
    mainModel ⟨false, ['1', 'a']⟩
      [TaskName.count, TaskName.sum, TaskName.max, TaskName.longest] =
      ([], false) :=
  mainModel_missing_input ⟨false, ['1', 'a']⟩
    [TaskName.count, TaskName.sum, TaskName.max, TaskName.longest] rfl

end NumbersAnalysis
